import Mathlib

/-!
Verification of the SmartTrap firmware core specification.

The repository's `src/` tree contains only the two configuration headers
(`FAW_MothTrap_Firmware_v1/config.h` and `FAW_Simplified/FAW_Simplfied/config.h`);
the behavioural core (break-beam detector, light gate, event store, transfer
protocol, startup validation) is not present under `src/`.  Those components are
therefore modelled from the specification, faithful to its words, while every
numeric constant below is taken directly from the configuration headers.
-/

/-! ## Constants from src/firmware/FAW_MothTrap_Firmware_v1/config.h -/

/-- `#define DEBOUNCE_TIME_MS 100` (config.h line 28). -/
def DEBOUNCE_TIME_MS : Nat := 100

/-- `#define LIGHT_THRESHOLD 30` (both headers, line 42 resp. 105). -/
def LIGHT_THRESHOLD : Nat := 30

/-- `#define USE_LDR_FOR_NIGHT true` (config.h line 37). -/
def USE_LDR_FOR_NIGHT : Bool := true

/-- `#define NIGHT_START_HOUR 18` (config.h line 46). -/
def NIGHT_START_HOUR : Nat := 18

/-- `#define NIGHT_END_HOUR 6` (config.h line 47). -/
def NIGHT_END_HOUR : Nat := 6

/-- `#define LDR_MIN 0` (config.h line 124). -/
def LDR_MIN : Nat := 0

/-- `#define LDR_MAX 4095` (config.h line 125). -/
def LDR_MAX : Nat := 4095

/-- `#define MAX_STORED_EVENTS 100` (config.h line 181). -/
def MAX_STORED_EVENTS : Nat := 100

/-! ## Constants from src/firmware/FAW_Simplified/FAW_Simplfied/config.h (active section) -/

/-- `#define FORCE_NIGHT_MODE true` (line 104). -/
def FORCE_NIGHT_MODE : Bool := true

/-- `#define MOTH_COOLDOWN_MS 500` (line 106). -/
def MOTH_COOLDOWN_MS : Nat := 500

/-! ## Break-Beam Detector (spec section 4.2) -/

/-- Detector phases.  The spec's `Broken` state is instantaneous (on entering it
one signal is emitted and the machine moves to `Cooldown` in the same tick), so
the persistent phases are `clear` and `cooldown`. -/
inductive DPhase
  | clear
  | cooldown
deriving DecidableEq

/-- Modelled from the spec: state of the Break-Beam Detector of section 4.2,
whose implementation is not in `src/`.  `brokenStart` records the timestamp at
which the current continuous run of raw "broken" readings began (none when the
line reads clear or no run is in progress); `cooldownStart` records when the
cooldown began. -/
structure DetState where
  phase : DPhase
  brokenStart : Option Nat
  cooldownStart : Nat
deriving DecidableEq

/-- Modelled from the spec: one evaluation of the Break-Beam Detector of
section 4.2 against the current timestamp `now` and the raw line reading `raw`
(true = beam broken).  `Clear → Broken` fires once the raw line has read broken
continuously for at least `D` milliseconds; on firing, one `DetectionSignal` is
emitted (the returned Bool) and the machine enters cooldown.  `Cooldown → Clear`
happens after `C` milliseconds regardless of line state, and a fresh debounce
interval is required afterwards (also at boot the line being already broken does
not count as an edge: `brokenStart` starts out empty). -/
def detStep (D C : Nat) (s : DetState) (now : Nat) (raw : Bool) : DetState × Bool :=
  match s.phase with
  | DPhase.clear =>
    if raw then
      match s.brokenStart with
      | none => (⟨DPhase.clear, some now, s.cooldownStart⟩, false)
      | some t0 =>
        if D ≤ now - t0 then (⟨DPhase.cooldown, none, now⟩, true)
        else (s, false)
    else (⟨DPhase.clear, none, s.cooldownStart⟩, false)
  | DPhase.cooldown =>
    if C ≤ now - s.cooldownStart then
      (⟨DPhase.clear, if raw then some now else none, s.cooldownStart⟩, false)
    else (s, false)

/-- Modelled from the spec: run the detector over a list of raw line readings
sampled one per millisecond starting at time `t`, collecting the timestamps at
which a `DetectionSignal` is emitted. -/
def runDet (D C : Nat) : DetState → Nat → List Bool → List Nat
  | _, _, [] => []
  | s, t, r :: rs =>
    (if (detStep D C s t r).2 then [t] else []) ++ runDet D C (detStep D C s t r).1 (t + 1) rs

/-- Detector state at boot: clear, with no debounce run in progress. -/
def detInit : DetState := ⟨DPhase.clear, none, 0⟩

/-- Emission timestamps of the detector under the examined configuration
(debounce 100 ms, cooldown 500 ms), fed readings from time 0. -/
def detEmissions (rs : List Bool) : List Nat :=
  runDet DEBOUNCE_TIME_MS MOTH_COOLDOWN_MS detInit 0 rs

/-- `runsBoundedAux D c rs = true` iff, given that the `c` readings immediately
preceding `rs` were raw "broken", every run of consecutive broken readings in
the combined sequence has length at most `D`; i.e. the line never reads broken
continuously for `D` milliseconds or more. -/
def runsBoundedAux (D : Nat) : Nat → List Bool → Bool
  | _, [] => true
  | c, true :: rs => decide (c + 1 ≤ D) && runsBoundedAux D (c + 1) rs
  | _, false :: rs => runsBoundedAux D 0 rs

/-- The raw line never reads broken continuously for `D` milliseconds or more:
every maximal run of consecutive broken samples (1 ms apart) has at most `D`
samples, so it spans strictly less than `D` milliseconds. -/
def neverBrokenLong (D : Nat) (rs : List Bool) : Bool := runsBoundedAux D 0 rs

/-! ## Light/Time Gate (spec section 4.1) -/

/-- Modelled from the spec: configuration of the Light/Time Gate of section 4.1,
whose implementation is not in `src/`. -/
structure GateConfig where
  force_night : Bool
  use_ldr : Bool
  light_threshold : Nat
  ldr_min : Nat
  ldr_max : Nat
  night_start_hour : Nat
  night_end_hour : Nat
deriving DecidableEq

/-- Modelled from the spec: normalisation of a raw photoresistor reading to a
0 to 100 scale using the calibrated bounds (LDR strategy of section 4.1). -/
def ldr_scale (cfg : GateConfig) (raw : Nat) : Nat :=
  (raw - cfg.ldr_min) * 100 / (cfg.ldr_max - cfg.ldr_min)

/-- Modelled from the spec: `is_night()` of section 4.1, not present in `src/`.
A force-override flag makes it always return true; otherwise the LDR strategy
(night iff scaled value < threshold) or the RTC strategy (wrap-around hour
window, e.g. start 18 / end 6 means hour at least 18 or below 6) applies. -/
def is_night (cfg : GateConfig) (raw : Nat) (hour : Nat) : Bool :=
  if cfg.force_night then true
  else if cfg.use_ldr then decide (ldr_scale cfg raw < cfg.light_threshold)
  else if cfg.night_start_hour ≤ cfg.night_end_hour then
    decide (cfg.night_start_hour ≤ hour ∧ hour < cfg.night_end_hour)
  else decide (cfg.night_start_hour ≤ hour ∨ hour < cfg.night_end_hour)

/-- Gate configuration of the FAW_MothTrap_Firmware_v1 header: LDR strategy with
the calibrated bounds, no force override (that header defines none). -/
def v1GateConfig : GateConfig :=
  ⟨false, USE_LDR_FOR_NIGHT, LIGHT_THRESHOLD, LDR_MIN, LDR_MAX,
    NIGHT_START_HOUR, NIGHT_END_HOUR⟩

/-- Gate configuration of the FAW_Simplified production header, which sets
`FORCE_NIGHT_MODE` to true. -/
def simplifiedGateConfig : GateConfig :=
  ⟨FORCE_NIGHT_MODE, false, LIGHT_THRESHOLD, LDR_MIN, LDR_MAX,
    NIGHT_START_HOUR, NIGHT_END_HOUR⟩

/-- Modelled from the spec: the Capture Orchestrator (section 4.3 step 1)
consults the gate on each `DetectionSignal` and keeps the signal exactly when
the gate reports night. -/
def orchestratorKeeps (cfg : GateConfig) (raw : Nat) (hour : Nat) : Bool :=
  is_night cfg raw hour

/-! ## Event Store (spec sections 3 and 4.4) -/

/-- Modelled from the spec: the data an Event carries besides its store-assigned
id and delivery flag (section 3) — timestamp and optional capture artifact byte
references.  The Capture Orchestrator implementation is not in `src/`. -/
structure EventData where
  timestamp : Nat
  imageBytes : Option (List Nat)
  audioBytes : Option (List Nat)
deriving DecidableEq

/-- Modelled from the spec: an Event record of section 3 — `id` (monotonic,
unique, assigned at creation), `timestamp`, optional artifact bytes, and the
mutable `sent_flag`. -/
structure Event where
  id : Nat
  timestamp : Nat
  imageBytes : Option (List Nat)
  audioBytes : Option (List Nat)
  sent_flag : Bool
deriving DecidableEq

/-- Modelled from the spec: the Event Store of section 4.4, not present in
`src/` — an ordered buffer of capacity `MAX_STORED_EVENTS` (oldest first) plus
the next id to assign; ids are never reused, so `nextId` survives eviction and
`clear`. -/
structure EventStore where
  events : List Event
  nextId : Nat
deriving DecidableEq

/-- The empty store; ids are assigned from 1, so the n-th appended event has
id n. -/
def EventStore.empty : EventStore := ⟨[], 1⟩

/-- Modelled from the spec: `append(event) -> slot_id` of section 4.4 — assigns
the next monotonic id, appends as logically newest, evicts the logically oldest
on overflow, and never fails. -/
def EventStore.append (s : EventStore) (d : EventData) : EventStore × Nat :=
  let e : Event := ⟨s.nextId, d.timestamp, d.imageBytes, d.audioBytes, false⟩
  let evs :=
    if MAX_STORED_EVENTS ≤ s.events.length then s.events.drop 1 ++ [e]
    else s.events ++ [e]
  (⟨evs, s.nextId + 1⟩, s.nextId)

/-- Modelled from the spec: `get(id) -> Event | NotFound` of section 4.4,
lookup by stable id. -/
def EventStore.get (s : EventStore) (i : Nat) : Option Event :=
  s.events.find? (fun e => decide (e.id = i))

/-- Modelled from the spec: `iterate_unsent()` of section 4.4 — the events with
`sent_flag = false`, in ascending id order (the store keeps oldest first). -/
def EventStore.iterate_unsent (s : EventStore) : List Event :=
  s.events.filter (fun e => !e.sent_flag)

/-- Modelled from the spec: `mark_sent(id)` of section 4.4 — sets the flag on
the live event with that id; idempotent, no-op when the id is absent. -/
def EventStore.mark_sent (s : EventStore) (i : Nat) : EventStore :=
  ⟨s.events.map (fun e => if e.id = i then { e with sent_flag := true } else e), s.nextId⟩

/-- Modelled from the spec: `clear()` of section 4.4 — drops all events; ids
are never reused, so `nextId` is kept. -/
def EventStore.clear (s : EventStore) : EventStore := ⟨[], s.nextId⟩

/-- Fold `append` over a list of event payloads. -/
def EventStore.appendAll (s : EventStore) (ds : List EventData) : EventStore :=
  ds.foldl (fun st d => (st.append d).1) s

/-- The store operations available to the rest of the system (section 4.4). -/
inductive StoreOp
  | opAppend (d : EventData)
  | opMarkSent (i : Nat)
  | opClear
deriving DecidableEq

/-- Apply one store operation. -/
def EventStore.applyOp (s : EventStore) : StoreOp → EventStore
  | StoreOp.opAppend d => (s.append d).1
  | StoreOp.opMarkSent i => s.mark_sent i
  | StoreOp.opClear => s.clear

/-- Apply a sequence of store operations. -/
def EventStore.applyOps (s : EventStore) (ops : List StoreOp) : EventStore :=
  ops.foldl EventStore.applyOp s

/-- Store invariant of section 4.4: live ids strictly increase with insertion
order (hence no two live events share an id), and every live id is below the
next id to be assigned (hence an id is never reused). -/
def EventStore.Inv (s : EventStore) : Prop :=
  (s.events.map Event.id).Pairwise (fun a b => a < b)
  ∧ ∀ e ∈ s.events, e.id < s.nextId

/-! ## Transfer Protocol Engine (spec section 4.5) -/

/-- Modelled from the spec: MTU-bounded chunking with bounded fuel (the fuel is
instantiated with the data length, which suffices for any positive MTU). -/
def chunksOfAux (mtu : Nat) : Nat → List Nat → List (List Nat)
  | _, [] => []
  | 0, _ :: _ => []
  | fuel + 1, d :: ds => ((d :: ds).take mtu) :: chunksOfAux mtu fuel ((d :: ds).drop mtu)

/-- Modelled from the spec: split a serialized byte stream into chunks no
larger than the negotiated MTU (section 4.5, `Streaming`). -/
def chunksOf (mtu : Nat) (data : List Nat) : List (List Nat) :=
  chunksOfAux mtu data.length data

/-- Artifact-kind tag for the self-describing header: bit 0 set iff an image
artifact is present, bit 1 set iff an audio artifact is present. -/
def kindTag (e : Event) : Nat :=
  (if e.imageBytes.isSome then 1 else 0) + (if e.audioBytes.isSome then 2 else 0)

/-- Length-prefixed encoding of an optional artifact's bytes (nothing is
emitted for an absent artifact; the header's kind tag records absence). -/
def serializeArt : Option (List Nat) → List Nat
  | none => []
  | some bs => bs.length :: bs

/-- The event's fields and artifact bytes following the header. -/
def serializePayload (e : Event) : List Nat :=
  e.timestamp :: (serializeArt e.imageBytes ++ serializeArt e.audioBytes)

/-- Modelled from the spec: serialization of an Event for transfer
(section 4.5, `Streaming`) — a self-describing header (event id, total length,
artifact kinds present) followed by the event's fields and artifact bytes. -/
def serializeEvent (e : Event) : List Nat :=
  e.id :: (serializePayload e).length :: kindTag e :: serializePayload e

/-- Parse one length-prefixed optional artifact, given its presence bit. -/
def parseArt (present : Bool) (bs : List Nat) : Option (Option (List Nat) × List Nat) :=
  if present then
    match bs with
    | [] => none
    | n :: rest =>
      if n ≤ rest.length then some (some (rest.take n), rest.drop n) else none
  else some (none, bs)

/-- Modelled from the spec: reassembly of a received event — parse the header
and then the fields and artifact bytes; the receiver reconstructs the event
(its `sent_flag` is delivery bookkeeping and is not transferred). -/
def parseEvent (bs : List Nat) : Option Event :=
  match bs with
  | i :: len :: kind :: ts :: rest =>
    if len = rest.length + 1 then
      (parseArt (decide (kind % 2 = 1)) rest).bind (fun pr =>
        (parseArt (decide (kind / 2 = 1)) pr.2).bind (fun pr2 =>
          if pr2.2 = [] then some ⟨i, ts, pr.1, pr2.1, false⟩ else none))
    else none
  | _ => none

/-- Peer response to one transmitted chunk: an acknowledgement within the
ack-wait window, or a timeout. -/
inductive AckResult
  | ack
  | timeout
deriving DecidableEq

/-- Modelled from the spec: the per-event send loop of section 4.5.  Each chunk
is transmitted and the peer's response consumed before the next chunk is
touched; on ack the engine advances to the next chunk, on timeout it
retransmits the same chunk until the bounded retry count `B` is exhausted and
then abandons the event (result `false`; per the spec scenario, retry bound 2
means a chunk whose ack times out twice is abandoned).  The result is `true`
iff every chunk was acknowledged. -/
def runSend (B : Nat) : List (List Nat) → Nat → List AckResult → Bool
  | [], _, _ => true
  | _ :: _, _, [] => false
  | _ :: cs, _, AckResult.ack :: tl => runSend B cs 0 tl
  | c :: cs, t, AckResult.timeout :: tl =>
    if B ≤ t + 1 then false else runSend B (c :: cs) (t + 1) tl

/-- Observable protocol actions of one session, for stating ordering
properties: chunk transmission, ack receipt, ack timeout (each tagged with the
chunk sequence number). -/
inductive TAct
  | tsend (seq : Nat)
  | tack (seq : Nat)
  | ttimeout (seq : Nat)
deriving DecidableEq

/-- Modelled from the spec: transcript of the `Streaming`/`AwaitingAck` loop of
section 4.5 over an event of `n` chunks, with retry bound `B`, starting at
chunk `seq` with `t` timeouts already recorded for it; `acks` is the sequence
of peer responses.  Each transmitted chunk is recorded, then the response; an
ack advances the sequence number, a timeout beyond the retry bound abandons the
event (ending the transcript). -/
def runTrace (B n : Nat) (seq t : Nat) : List AckResult → List TAct
  | [] => if n ≤ seq then [] else [TAct.tsend seq]
  | AckResult.ack :: tl =>
    if n ≤ seq then []
    else TAct.tsend seq :: TAct.tack seq :: runTrace B n (seq + 1) 0 tl
  | AckResult.timeout :: tl =>
    if n ≤ seq then []
    else TAct.tsend seq :: TAct.ttimeout seq ::
      (if B ≤ t + 1 then [] else runTrace B n seq (t + 1) tl)

/-- Modelled from the spec: one event's turn in the transfer engine — serialize
and chunk it, run the send loop, and mark it sent in the store only if every
chunk was acknowledged (an abandoned event's `sent_flag` stays false). -/
def transferStep (B mtu : Nat) (s : EventStore) (e : Event) (acks : List AckResult) :
    EventStore :=
  if runSend B (chunksOf mtu (serializeEvent e)) 0 acks then s.mark_sent e.id else s

/-- Modelled from the spec: the engine walks the unsent events in ascending id
order (the cursor), pairing each with the peer responses of its send loop; an
abandoned event is skipped and the engine moves to the next one. -/
def transferRun (B mtu : Nat) (s : EventStore) (ackss : List (List AckResult)) :
    EventStore :=
  (s.iterate_unsent.zip ackss).foldl (fun st p => transferStep B mtu st p.1 p.2) s

/-! ## Startup configuration validation (spec sections 5 and 7) -/

/-- Modelled from the spec: the independently configurable timing constants of
section 5 (debounce, cooldown, capture, ack-wait) and the LDR calibration
bounds, as signed values so that "zero or negative" is expressible. -/
structure TimingConfig where
  debounce_ms : Int
  cooldown_ms : Int
  capture_timeout_ms : Int
  ack_wait_ms : Int
  cal_ldr_min : Int
  cal_ldr_max : Int
deriving DecidableEq

/-- Modelled from the spec: configuration-time validation (section 5: none of
the four timeouts may be zero or negative; section 7: an out-of-range
calibration bound is also fatal). -/
def validateTiming (c : TimingConfig) : Bool :=
  decide (0 < c.debounce_ms) && decide (0 < c.cooldown_ms) &&
  decide (0 < c.capture_timeout_ms) && decide (0 < c.ack_wait_ms) &&
  decide (0 ≤ c.cal_ldr_min) && decide (c.cal_ldr_min < c.cal_ldr_max)

/-- Startup outcome: proceed, or the fatal `ConfigurationInvalid` of
section 7. -/
inductive StartupResult
  | proceed
  | configurationInvalid
deriving DecidableEq

/-- Modelled from the spec: startup refuses to proceed (fatal
`ConfigurationInvalid`) unless the configuration validates. -/
def startup (c : TimingConfig) : StartupResult :=
  if validateTiming c then StartupResult.proceed else StartupResult.configurationInvalid

/-! ## Scenario fixtures -/

/-- The spec scenario's event: a 3000-byte image artifact. -/
def evA : Event := ⟨1, 0, some (List.replicate 3000 0), none, false⟩

/-- A second, small event, appended after `evA`. -/
def evB : Event := ⟨2, 0, some [1, 2, 3], none, false⟩

/-- A store holding the scenario events. -/
def scenarioStore : EventStore := ⟨[evA, evB], 3⟩

/-- Peer responses for the scenario: `evA`'s chunks 1 and 2 are acknowledged,
chunk 3's ack times out twice; `evB`'s single chunk is acknowledged. -/
def scenarioAcks : List (List AckResult) :=
  [[AckResult.ack, AckResult.ack, AckResult.timeout, AckResult.timeout], [AckResult.ack]]

/-- A one-event store used to witness the `mark_sent` claim. -/
def wStore : EventStore := ⟨[⟨1, 0, none, none, false⟩], 2⟩

/-! ## Detector lemmas -/

/-- While the detector is in the clear phase, if every run of consecutive
broken readings (counting the `c` broken readings immediately before the
remaining input, tracked by `brokenStart`) stays below the debounce bound, no
signal is ever emitted. -/
theorem runDet_noLong (D C : Nat) :
    ∀ (rs : List Bool) (t c : Nat) (b : Option Nat) (u : Nat),
      (b = none ∧ c = 0 ∨ ∃ t0, b = some t0 ∧ t0 ≤ t ∧ t - t0 = c) →
      runsBoundedAux D c rs = true →
      runDet D C ⟨DPhase.clear, b, u⟩ t rs = [] := by
  intro rs
  induction rs with
  | nil => intro t c b u hb hr; rfl
  | cons r rs ih =>
    intro t c b u hb hr
    cases r with
    | false =>
      have hstep : detStep D C ⟨DPhase.clear, b, u⟩ t false = (⟨DPhase.clear, none, u⟩, false) := by
        simp [detStep]
      rw [runDet, hstep]
      simp only [List.nil_append, if_neg (Bool.false_ne_true)]
      have hr' : runsBoundedAux D 0 rs = true := by
        simpa [runsBoundedAux] using hr
      exact ih (t + 1) 0 none u (Or.inl ⟨rfl, rfl⟩) hr'
    | true =>
      have hr' : c + 1 ≤ D ∧ runsBoundedAux D (c + 1) rs = true := by
        simpa [runsBoundedAux] using hr
      rcases hb with ⟨hbn, hc0⟩ | ⟨t0, hbs, ht0, hc⟩
      · subst hbn; subst hc0
        have hstep : detStep D C ⟨DPhase.clear, none, u⟩ t true
            = (⟨DPhase.clear, some t, u⟩, false) := by
          simp [detStep]
        rw [runDet, hstep]
        simp only [List.nil_append, if_neg (Bool.false_ne_true)]
        exact ih (t + 1) 1 (some t) u (Or.inr ⟨t, rfl, by omega, by omega⟩) hr'.2
      · subst hbs
        have hnd : ¬ D ≤ t - t0 := by omega
        have hstep : detStep D C ⟨DPhase.clear, some t0, u⟩ t true
            = (⟨DPhase.clear, some t0, u⟩, false) := by
          simp [detStep, hnd]
        rw [runDet, hstep]
        simp only [List.nil_append, if_neg (Bool.false_ne_true)]
        exact ih (t + 1) (c + 1) (some t0) u (Or.inr ⟨t0, rfl, by omega, by omega⟩) hr'.2

/-- Every emission timestamp is at least the time of the first processed
reading. -/
theorem runDet_ge (D C : Nat) :
    ∀ (rs : List Bool) (t : Nat) (s : DetState) (e : Nat),
      e ∈ runDet D C s t rs → t ≤ e := by
  intro rs
  induction rs with
  | nil => intro t s e he; simp [runDet] at he
  | cons r rs ih =>
    intro t s e he
    rw [runDet] at he
    rcases List.mem_append.1 he with h1 | h2
    · by_cases hb : (detStep D C s t r).2
      · rw [if_pos hb] at h1
        have : e = t := by simpa using h1
        omega
      · rw [if_neg hb] at h1
        simp at h1
    · have := ih (t + 1) _ e h2
      omega

/-- Once the detector has entered cooldown at time `u`, every later emission is
at least `u + C`. -/
theorem runDet_cooldown_ge (D C : Nat) (hC : 0 < C) :
    ∀ (rs : List Bool) (t : Nat) (b : Option Nat) (u : Nat) (e : Nat),
      e ∈ runDet D C ⟨DPhase.cooldown, b, u⟩ t rs → u + C ≤ e := by
  intro rs
  induction rs with
  | nil => intro t b u e he; simp [runDet] at he
  | cons r rs ih =>
    intro t b u e he
    by_cases hcu : C ≤ t - u
    · have hstep : detStep D C ⟨DPhase.cooldown, b, u⟩ t r
          = (⟨DPhase.clear, if r then some t else none, u⟩, false) := by
        simp [detStep, hcu]
      rw [runDet, hstep] at he
      simp only [List.nil_append, if_neg (Bool.false_ne_true)] at he
      have := runDet_ge D C rs (t + 1) _ e he
      omega
    · have hstep : detStep D C ⟨DPhase.cooldown, b, u⟩ t r
          = (⟨DPhase.cooldown, b, u⟩, false) := by
        simp [detStep, hcu]
      rw [runDet, hstep] at he
      simp only [List.nil_append, if_neg (Bool.false_ne_true)] at he
      exact ih (t + 1) b u e he

/-- Consecutive emissions of the detector are always at least one cooldown
apart, from any starting state. -/
theorem runDet_pairwise (D C : Nat) (hC : 0 < C) :
    ∀ (rs : List Bool) (t : Nat) (s : DetState),
      (runDet D C s t rs).Pairwise (fun a b => a + C ≤ b) := by
  intro rs
  induction rs with
  | nil => intro t s; simp [runDet]
  | cons r rs ih =>
    intro t s
    rw [runDet]
    by_cases hb : (detStep D C s t r).2
    · rw [if_pos hb]
      have hcool : (detStep D C s t r).1 = ⟨DPhase.cooldown, none, t⟩ := by
        rcases s with ⟨ph, b, u⟩
        cases ph with
        | clear =>
          cases r with
          | false => simp [detStep] at hb
          | true =>
            cases b with
            | none => simp [detStep] at hb
            | some t0 =>
              by_cases hd : D ≤ t - t0
              · simp [detStep, hd]
              · simp [detStep, hd] at hb
        | cooldown =>
          by_cases hcu : C ≤ t - u <;> simp [detStep, hcu] at hb
      rw [hcool, List.singleton_append]
      refine List.pairwise_cons.2 ⟨?_, ih (t + 1) _⟩
      intro e he
      exact runDet_cooldown_ge D C hC rs (t + 1) none t e he
    · rw [if_neg hb, List.nil_append]
      exact ih (t + 1) _

/-- In a list that is pairwise separated by at least `K`, any two members in
ascending numeric order are at least `K` apart. -/
theorem pairwise_gap_mem {K : Nat} :
    ∀ {l : List Nat}, l.Pairwise (fun a b => a + K ≤ b) →
      ∀ a ∈ l, ∀ b ∈ l, a < b → a + K ≤ b := by
  intro l
  induction l with
  | nil => intro _ a ha; simp at ha
  | cons x xs ih =>
    intro hp a ha b hb hab
    rw [List.pairwise_cons] at hp
    rcases List.mem_cons.1 ha with rfl | ha'
    · rcases List.mem_cons.1 hb with rfl | hb'
      · omega
      · exact hp.1 b hb'
    · rcases List.mem_cons.1 hb with rfl | hb'
      · have := hp.1 a ha'
        omega
      · exact ih hp.2 a ha' b hb' hab

/-! ## Claim theorems: detector -/

/-- C1: for every raw beam-line sequence in which the line never reads broken
continuously for at least `DEBOUNCE_TIME_MS` (100 ms), the detector emits no
`DetectionSignal`; and for a line broken continuously from t = 0 to t = 150 ms
(readings at 0..150), exactly one signal is emitted, at t = 100 ms. -/
theorem C1_debounce_rejects_short (rs : List Bool)
    (h : neverBrokenLong DEBOUNCE_TIME_MS rs = true) :
    detEmissions rs = [] ∧ detEmissions (List.replicate 151 true) = [100] :=
  ⟨runDet_noLong DEBOUNCE_TIME_MS MOTH_COOLDOWN_MS rs 0 0 none 0
      (Or.inl ⟨rfl, rfl⟩) h,
    by decide⟩

/-- Witness for C1 at a concrete input: a line broken for 51 samples (50 ms,
shorter than the 100 ms debounce) satisfies the hypothesis, and the claimed
conclusions evaluate as stated. -/
theorem C1_witness :
    neverBrokenLong DEBOUNCE_TIME_MS (List.replicate 51 true) = true ∧
      (detEmissions (List.replicate 51 true) = [] ∧
        detEmissions (List.replicate 151 true) = [100]) :=
  ⟨by decide, C1_debounce_rejects_short (List.replicate 51 true) (by decide)⟩

/-- C2: whenever the detector emits a signal at time `t`, no further signal is
emitted at any time `t'` with `t < t' < t + MOTH_COOLDOWN_MS` (500 ms),
regardless of the raw line's activity: any later emission is at least one full
cooldown after `t`. -/
theorem C2_cooldown_gap (rs : List Bool) (t t' : Nat)
    (h : t ∈ detEmissions rs) (h' : t' ∈ detEmissions rs) (hlt : t < t') :
    t + MOTH_COOLDOWN_MS ≤ t' :=
  pairwise_gap_mem
    (runDet_pairwise DEBOUNCE_TIME_MS MOTH_COOLDOWN_MS (by decide) rs 0 detInit)
    t h t' h' hlt

set_option maxRecDepth 40000

/-- Witness for C2 at a concrete input: a line broken for 701 samples yields
emissions at t = 100 and t = 700, and the theorem gives the 500 ms gap. -/
theorem C2_witness : (100 : Nat) + MOTH_COOLDOWN_MS ≤ 700 :=
  C2_cooldown_gap (List.replicate 701 true) 100 700 (by decide) (by decide) (by decide)

/-! ## Event Store lemmas -/

/-- Characterisation of a run of appends: starting from a store whose live ids
are the contiguous range `[a, a+m)` with `a + m` the next id, appending `L`
more events leaves the `min (m+L) MAX_STORED_EVENTS` most recent ids, i.e.
eviction is strictly oldest-first and append never fails. -/
theorem appendAll_ids :
    ∀ (ds : List EventData) (s : EventStore) (a m : Nat),
      s.events.map Event.id = List.range' a m →
      s.nextId = a + m →
      m ≤ MAX_STORED_EVENTS →
      (s.appendAll ds).events.map Event.id
          = List.range' (a + m + ds.length - min (m + ds.length) MAX_STORED_EVENTS)
              (min (m + ds.length) MAX_STORED_EVENTS)
        ∧ (s.appendAll ds).nextId = a + m + ds.length := by
  intro ds
  induction ds with
  | nil =>
    intro s a m h1 h2 h3
    simp only [EventStore.appendAll, List.foldl_nil, List.length_nil, Nat.add_zero]
    rw [Nat.min_eq_left h3, Nat.add_sub_cancel]
    exact ⟨h1, h2⟩
  | cons d ds ih =>
    intro s a m h1 h2 h3
    have hlen : s.events.length = m := by
      have := congrArg List.length h1
      simpa using this
    have hall : EventStore.appendAll s (d :: ds) = EventStore.appendAll (s.append d).1 ds := by
      simp [EventStore.appendAll]
    by_cases hm : m < MAX_STORED_EVENTS
    · have hcond : ¬ MAX_STORED_EVENTS ≤ s.events.length := by omega
      have hev : (s.append d).1.events
          = s.events ++ [⟨s.nextId, d.timestamp, d.imageBytes, d.audioBytes, false⟩] := by
        simp [EventStore.append, hcond]
      have h1' : (s.append d).1.events.map Event.id = List.range' a (m + 1) := by
        rw [hev, List.map_append, h1, List.range'_concat]
        simp [h2]
      have h2' : (s.append d).1.nextId = a + (m + 1) := by
        simp [EventStore.append, h2]
        omega
      have h3' : m + 1 ≤ MAX_STORED_EVENTS := by omega
      rw [hall]
      rcases ih (s.append d).1 a (m + 1) h1' h2' h3' with ⟨hA, hB⟩
      constructor
      · rw [hA]
        simp only [List.length_cons, MAX_STORED_EVENTS] at h3 ⊢
        congr 1 <;> omega
      · rw [hB]
        simp only [List.length_cons]
        omega
    · have hMpos : (0:Nat) < MAX_STORED_EVENTS := by decide
      obtain ⟨m', rfl⟩ : ∃ m', m = m' + 1 := ⟨m - 1, by omega⟩
      have hcond : MAX_STORED_EVENTS ≤ s.events.length := by omega
      have hev : (s.append d).1.events
          = s.events.drop 1 ++ [⟨s.nextId, d.timestamp, d.imageBytes, d.audioBytes, false⟩] := by
        simp [EventStore.append, hcond]
      have h1' : (s.append d).1.events.map Event.id = List.range' (a + 1) (m' + 1) := by
        have hx : s.nextId = a + 1 + 1 * m' := by omega
        rw [List.range'_succ] at h1
        rw [hev, List.map_append, List.map_drop, h1]
        simp only [List.drop_one, List.tail_cons, List.map_cons, List.map_nil, hx]
        rw [← List.range'_concat]
      have h2' : (s.append d).1.nextId = (a + 1) + (m' + 1) := by
        simp [EventStore.append, h2]
        omega
      rw [hall]
      rcases ih (s.append d).1 (a + 1) (m' + 1) h1' h2' h3 with ⟨hA, hB⟩
      constructor
      · rw [hA]
        simp only [List.length_cons, MAX_STORED_EVENTS] at h3 hm ⊢
        congr 1 <;> omega
      · rw [hB]
        simp only [List.length_cons]
        omega

/-- The store never holds more than `MAX_STORED_EVENTS` events: the bound is
preserved by every append. -/
theorem appendAll_length_le :
    ∀ (ds : List EventData) (s : EventStore),
      s.events.length ≤ MAX_STORED_EVENTS →
      (EventStore.appendAll s ds).events.length ≤ MAX_STORED_EVENTS := by
  intro ds
  induction ds with
  | nil => intro s h; simpa [EventStore.appendAll] using h
  | cons d ds ih =>
    intro s h
    have hall : EventStore.appendAll s (d :: ds) = EventStore.appendAll (s.append d).1 ds := by
      simp [EventStore.appendAll]
    rw [hall]
    apply ih
    by_cases hc : MAX_STORED_EVENTS ≤ s.events.length
    · simp only [EventStore.append, if_pos hc]
      simp only [List.length_append, List.length_drop, List.length_singleton]
      simp only [MAX_STORED_EVENTS] at *
      omega
    · simp only [EventStore.append, if_neg hc]
      simp only [List.length_append, List.length_singleton]
      simp only [MAX_STORED_EVENTS] at *
      omega

/-! ## Claim theorems: Event Store capacity and eviction -/

/-- C3: appending `MAX_STORED_EVENTS + k` events (k > 0) to an empty store
leaves exactly `MAX_STORED_EVENTS` live events, namely the most recently
appended ones — the appends numbered k+1 .. MAX_STORED_EVENTS+k (ids are
assigned from 1, so the n-th append has id n); eviction is strictly
oldest-first, append is total (it never fails), and at every intermediate
point at most `MAX_STORED_EVENTS` events are live. -/
theorem C3_capacity_eviction (k : Nat) (hk : 0 < k) (ds : List EventData)
    (hlen : ds.length = MAX_STORED_EVENTS + k) :
    (EventStore.empty.appendAll ds).events.map Event.id
        = List.range' (k + 1) MAX_STORED_EVENTS
      ∧ (EventStore.empty.appendAll ds).events.length = MAX_STORED_EVENTS
      ∧ ∀ n, (EventStore.empty.appendAll (ds.take n)).events.length
          ≤ MAX_STORED_EVENTS := by
  have h0 : EventStore.empty.events.map Event.id = List.range' 1 0 := rfl
  have h2 : EventStore.empty.nextId = 1 + 0 := rfl
  rcases appendAll_ids ds EventStore.empty 1 0 h0 h2 (Nat.zero_le _) with ⟨hA, _⟩
  refine ⟨?_, ?_, ?_⟩
  · rw [hA]
    simp only [MAX_STORED_EVENTS] at hlen ⊢
    congr 1 <;> omega
  · have hlenA := congrArg List.length hA
    simp only [List.length_map, List.length_range'] at hlenA
    simp only [MAX_STORED_EVENTS] at hlenA hlen ⊢
    omega
  · intro n
    exact appendAll_length_le (ds.take n) EventStore.empty (Nat.zero_le _)

/-- Witness for C3 at a concrete input: 101 appends (k = 1) leave the 100
events with ids 2..101. -/
theorem C3_witness :
    (0:Nat) < 1
      ∧ (List.replicate 101
          ({ timestamp := 0, imageBytes := none, audioBytes := none } : EventData)).length
        = MAX_STORED_EVENTS + 1
      ∧ (EventStore.empty.appendAll (List.replicate 101
          ({ timestamp := 0, imageBytes := none, audioBytes := none } : EventData))).events.map
            Event.id
        = List.range' (1 + 1) MAX_STORED_EVENTS :=
  ⟨by decide, by decide,
    (C3_capacity_eviction 1 (by decide)
      (List.replicate 101 ⟨0, none, none⟩) (by decide)).1⟩

/-! ## Event Store lemmas: mark_sent and iteration -/

/-- If the id `i` is below the next id to be assigned and every live event
carrying `i` is already flagged sent, then no sequence of store operations that
avoids `clear` can make `iterate_unsent` yield `i` again: appends assign fresh
ids and `mark_sent` only sets flags. -/
theorem applyOps_no_unsent (i : Nat) :
    ∀ (ops : List StoreOp) (s : EventStore),
      StoreOp.opClear ∉ ops →
      i < s.nextId →
      (∀ e ∈ s.events, e.id = i → e.sent_flag = true) →
      i ∉ (EventStore.applyOps s ops).iterate_unsent.map Event.id := by
  intro ops
  induction ops with
  | nil =>
    intro s _ hi hs hmem
    rcases List.mem_map.1 hmem with ⟨e, he, hid⟩
    rcases List.mem_filter.1 he with ⟨hel, hflag⟩
    rw [hs e hel hid] at hflag
    simp at hflag
  | cons op ops ih =>
    intro s hnc hi hs
    have hnc' : StoreOp.opClear ∉ ops := fun h => hnc (List.mem_cons_of_mem _ h)
    have hstep : EventStore.applyOps s (op :: ops) = EventStore.applyOps (s.applyOp op) ops := by
      simp [EventStore.applyOps]
    rw [hstep]
    cases op with
    | opClear => exact absurd (List.mem_cons_self _ _) hnc
    | opAppend d =>
      refine ih (s.applyOp (StoreOp.opAppend d)) hnc' ?_ ?_
      · simp only [EventStore.applyOp, EventStore.append]
        omega
      · intro e he hid
        by_cases hc : MAX_STORED_EVENTS ≤ s.events.length
        · simp only [EventStore.applyOp, EventStore.append, if_pos hc,
            List.mem_append, List.mem_singleton] at he
          rcases he with he | rfl
          · exact hs e (List.mem_of_mem_drop he) hid
          · simp at hid
            omega
        · simp only [EventStore.applyOp, EventStore.append, if_neg hc,
            List.mem_append, List.mem_singleton] at he
          rcases he with he | rfl
          · exact hs e he hid
          · simp at hid
            omega
    | opMarkSent j =>
      refine ih (s.applyOp (StoreOp.opMarkSent j)) hnc' ?_ ?_
      · simpa only [EventStore.applyOp, EventStore.mark_sent] using hi
      · intro e he hid
        simp only [EventStore.applyOp, EventStore.mark_sent, List.mem_map] at he
        rcases he with ⟨e0, he0, rfl⟩
        by_cases hj : e0.id = j
        · simp [hj]
        · simp only [if_neg hj] at hid ⊢
          exact hs e0 he0 hid

/-! ## Claim theorems: mark_sent -/

/-- C7: `mark_sent` is idempotent; it is a no-op when no live event has the
given id; and once `mark_sent i` has been applied to a store in which a live
event carries `i` (and whose ids are all below `nextId`, as in every reachable
store), no later sequence of non-clear store operations makes `iterate_unsent`
yield `i` again. -/
theorem C7_mark_sent_contract (s : EventStore) (i : Nat) :
    (s.mark_sent i).mark_sent i = s.mark_sent i
    ∧ ((∀ e ∈ s.events, e.id ≠ i) → s.mark_sent i = s)
    ∧ ((∃ e ∈ s.events, e.id = i) → (∀ e ∈ s.events, e.id < s.nextId) →
        ∀ ops : List StoreOp, StoreOp.opClear ∉ ops →
          i ∉ ((s.mark_sent i).applyOps ops).iterate_unsent.map Event.id) := by
  refine ⟨?_, ?_, ?_⟩
  · rcases s with ⟨evs, n⟩
    simp only [EventStore.mark_sent, List.map_map, EventStore.mk.injEq, and_true]
    apply List.map_congr_left
    intro e _
    by_cases h : e.id = i
    · simp [Function.comp, h]
    · simp [Function.comp, h]
  · intro hno
    rcases s with ⟨evs, n⟩
    simp only [EventStore.mark_sent, EventStore.mk.injEq, and_true]
    have hcongr : ∀ e ∈ evs, (if e.id = i then { e with sent_flag := true } else e) = e := by
      intro e he
      rw [if_neg (hno e he)]
    rw [List.map_congr_left hcongr]
    exact List.map_id' evs
  · intro hex hwf ops hnc
    rcases hex with ⟨e0, he0, hid0⟩
    refine applyOps_no_unsent i ops (s.mark_sent i) hnc ?_ ?_
    · have := hwf e0 he0
      simp only [EventStore.mark_sent]
      omega
    · intro e he hid
      simp only [EventStore.mark_sent, List.mem_map] at he
      rcases he with ⟨e1, he1, rfl⟩
      by_cases hj : e1.id = i
      · simp [hj]
      · simp only [if_neg hj] at hid ⊢
        exact absurd hid hj

/-- Witness for C7 at a concrete input: a one-event store, mark its event sent,
then append another event; the unsent scan does not yield the marked id. -/
theorem C7_witness :
    (1:Nat) ∉ ((wStore.mark_sent 1).applyOps
        [StoreOp.opAppend ⟨5, none, none⟩]).iterate_unsent.map Event.id :=
  (C7_mark_sent_contract wStore 1).2.2 (by decide) (by decide)
    [StoreOp.opAppend ⟨5, none, none⟩] (by decide)

/-! ## Event Store lemmas: id invariant -/

/-- Appending preserves the id invariant: the surviving prefix keeps its
strictly increasing ids, and the fresh event's id `nextId` is above them
all. -/
theorem append_inv (s : EventStore) (d : EventData) (h : s.Inv) :
    ((s.append d).1).Inv := by
  rcases h with ⟨hpw, hlt⟩
  have key : ∀ X : List Event, X.Sublist s.events →
      ((X ++ [(⟨s.nextId, d.timestamp, d.imageBytes, d.audioBytes, false⟩ : Event)]).map
          Event.id).Pairwise (fun a b => a < b)
      ∧ ∀ e ∈ X ++ [(⟨s.nextId, d.timestamp, d.imageBytes, d.audioBytes, false⟩ : Event)],
          e.id < s.nextId + 1 := by
    intro X hX
    constructor
    · rw [List.map_append, List.pairwise_append]
      refine ⟨List.Pairwise.sublist (hX.map Event.id) hpw, by simp, ?_⟩
      intro x hx y hy
      rcases List.mem_map.1 hx with ⟨e, he, rfl⟩
      have hy' : y = s.nextId := by simpa using hy
      rw [hy']
      exact hlt e (hX.subset he)
    · intro e he
      rcases List.mem_append.1 he with he | he
      · have := hlt e (hX.subset he)
        omega
      · have : e = ⟨s.nextId, d.timestamp, d.imageBytes, d.audioBytes, false⟩ := by
          simpa using he
        rw [this]
        exact Nat.lt_succ_self s.nextId
  by_cases hc : MAX_STORED_EVENTS ≤ s.events.length
  · have hev : (s.append d).1.events
        = s.events.drop 1 ++ [⟨s.nextId, d.timestamp, d.imageBytes, d.audioBytes, false⟩] := by
      simp [EventStore.append, hc]
    have hnext : (s.append d).1.nextId = s.nextId + 1 := by
      simp [EventStore.append]
    rcases key (s.events.drop 1) (List.drop_sublist 1 s.events) with ⟨k1, k2⟩
    exact ⟨by rw [hev]; exact k1, by rw [hev, hnext]; exact k2⟩
  · have hev : (s.append d).1.events
        = s.events ++ [⟨s.nextId, d.timestamp, d.imageBytes, d.audioBytes, false⟩] := by
      simp [EventStore.append, hc]
    have hnext : (s.append d).1.nextId = s.nextId + 1 := by
      simp [EventStore.append]
    rcases key s.events (List.Sublist.refl _) with ⟨k1, k2⟩
    exact ⟨by rw [hev]; exact k1, by rw [hev, hnext]; exact k2⟩

/-- Every single store operation preserves the id invariant. -/
theorem applyOp_inv (s : EventStore) (op : StoreOp) (h : s.Inv) :
    (s.applyOp op).Inv := by
  cases op with
  | opAppend d => exact append_inv s d h
  | opMarkSent j =>
    rcases h with ⟨hpw, hlt⟩
    constructor
    · have hids : (s.mark_sent j).events.map Event.id = s.events.map Event.id := by
        simp only [EventStore.mark_sent, List.map_map]
        apply List.map_congr_left
        intro e _
        by_cases h : e.id = j
        · simp [Function.comp, h]
        · simp [Function.comp, h]
      simpa only [EventStore.applyOp, hids] using hpw
    · intro e he
      simp only [EventStore.applyOp, EventStore.mark_sent, List.mem_map] at he ⊢
      rcases he with ⟨e1, he1, rfl⟩
      by_cases h : e1.id = j
      · simpa [h] using hlt e1 he1
      · simpa [h] using hlt e1 he1
  | opClear =>
    exact ⟨by simp [EventStore.applyOp, EventStore.clear],
      by simp [EventStore.applyOp, EventStore.clear]⟩

/-- Any sequence of store operations preserves the id invariant. -/
theorem applyOps_inv : ∀ (ops : List StoreOp) (s : EventStore), s.Inv →
    (EventStore.applyOps s ops).Inv := by
  intro ops
  induction ops with
  | nil => intro s h; simpa [EventStore.applyOps] using h
  | cons op ops ih =>
    intro s h
    have hstep : EventStore.applyOps s (op :: ops) = EventStore.applyOps (s.applyOp op) ops := by
      simp [EventStore.applyOps]
    rw [hstep]
    exact ih _ (applyOp_inv s op h)

/-! ## Claim theorems: id invariant -/

/-- C8: the empty store satisfies the id invariant (no two live events share an
id, ids strictly increase with insertion order, every live id is below the
never-reused `nextId`); every store operation — append, mark_sent, clear —
preserves it; hence it holds in every reachable store state. -/
theorem C8_id_invariant :
    EventStore.Inv EventStore.empty
    ∧ (∀ (s : EventStore) (op : StoreOp), s.Inv → (s.applyOp op).Inv)
    ∧ ∀ ops : List StoreOp, (EventStore.empty.applyOps ops).Inv := by
  have hbase : EventStore.Inv EventStore.empty := by
    constructor
    · simp [EventStore.empty]
    · intro e he
      simp [EventStore.empty] at he
  exact ⟨hbase, fun s op h => applyOp_inv s op h,
    fun ops => applyOps_inv ops EventStore.empty hbase⟩

/-- Witness for C8 at a concrete input: the invariant after one append to the
empty store, obtained by applying the preservation part of the theorem to its
own base case. -/
theorem C8_witness :
    EventStore.Inv (EventStore.empty.applyOp (StoreOp.opAppend ⟨0, none, none⟩)) :=
  C8_id_invariant.2.1 EventStore.empty (StoreOp.opAppend ⟨0, none, none⟩)
    C8_id_invariant.1

/-! ## Claim theorems: Light/Time Gate -/

/-- C4: under the v1 configuration the LDR strategy scales the raw reading
linearly from the calibrated bounds [LDR_MIN, LDR_MAX] to 0-100 and reports
night iff the scaled value is strictly below `LIGHT_THRESHOLD`; a raw reading
of 1000 scales to 24 (24.4 before truncation) and yields night, a raw reading
of 2000 scales to 48 (48.8 before truncation) and yields day. -/
theorem C4_ldr_gate :
    (∀ raw hour, is_night v1GateConfig raw hour
        = decide ((raw - LDR_MIN) * 100 / (LDR_MAX - LDR_MIN) < LIGHT_THRESHOLD))
    ∧ ldr_scale v1GateConfig 1000 = 24
    ∧ ldr_scale v1GateConfig 2000 = 48
    ∧ (∀ hour, is_night v1GateConfig 1000 hour = true)
    ∧ (∀ hour, is_night v1GateConfig 2000 hour = false) :=
  ⟨fun _ _ => rfl, by decide, by decide, fun _ => rfl, fun _ => rfl⟩

/-- C10: the FAW_Simplified production configuration sets `FORCE_NIGHT_MODE`,
so `is_night` returns true for every sensor reading and every clock hour, the
orchestrator never discards a detection as daytime, and the result does not
depend on `LIGHT_THRESHOLD` (the threshold comparison is unreachable). -/
theorem C10_force_night :
    (∀ raw hour, is_night simplifiedGateConfig raw hour = true)
    ∧ (∀ raw hour, orchestratorKeeps simplifiedGateConfig raw hour = true)
    ∧ ∀ th raw hour,
        is_night { simplifiedGateConfig with light_threshold := th } raw hour = true :=
  ⟨fun _ _ => rfl, fun _ _ => rfl, fun _ _ _ => rfl⟩

/-! ## Claim theorems: configuration validation -/

/-- C9: startup validates that the debounce, cooldown, capture, and ack-wait
timing values are strictly positive (and the calibration bounds in range), and
refuses to proceed (fatal `ConfigurationInvalid`) whenever one of them is zero
or negative; the examined constants `DEBOUNCE_TIME_MS = 100` and
`MOTH_COOLDOWN_MS = 500` satisfy this precondition. -/
theorem C9_startup_validation :
    (∀ c : TimingConfig, startup c = StartupResult.proceed ↔
      (0 < c.debounce_ms ∧ 0 < c.cooldown_ms ∧ 0 < c.capture_timeout_ms ∧
        0 < c.ack_wait_ms ∧ 0 ≤ c.cal_ldr_min ∧ c.cal_ldr_min < c.cal_ldr_max))
    ∧ (∀ c : TimingConfig,
        c.debounce_ms ≤ 0 ∨ c.cooldown_ms ≤ 0 ∨ c.capture_timeout_ms ≤ 0 ∨ c.ack_wait_ms ≤ 0 →
          startup c = StartupResult.configurationInvalid)
    ∧ ∀ cap ack : Int, 0 < cap → 0 < ack →
        startup ⟨Int.ofNat DEBOUNCE_TIME_MS, Int.ofNat MOTH_COOLDOWN_MS, cap, ack,
            Int.ofNat LDR_MIN, Int.ofNat LDR_MAX⟩
          = StartupResult.proceed := by
  have hiff : ∀ c : TimingConfig, startup c = StartupResult.proceed ↔
      (0 < c.debounce_ms ∧ 0 < c.cooldown_ms ∧ 0 < c.capture_timeout_ms ∧
        0 < c.ack_wait_ms ∧ 0 ≤ c.cal_ldr_min ∧ c.cal_ldr_min < c.cal_ldr_max) := by
    intro c
    by_cases h : validateTiming c = true
    · simp only [startup, if_pos h, true_iff]
      simpa [validateTiming, and_assoc] using h
    · simp only [startup, if_neg h]
      constructor
      · intro hbad
        exact absurd hbad (by simp)
      · intro hp
        exact absurd (by simpa [validateTiming, and_assoc] using hp) h
  refine ⟨hiff, ?_, ?_⟩
  · intro c hbad
    by_cases h : validateTiming c = true
    · have := (hiff c).1 (by simp [startup, h])
      omega
    · simp [startup, h]
  · intro cap ack hcap hack
    apply (hiff _).2
    exact ⟨show (0:Int) < Int.ofNat DEBOUNCE_TIME_MS by decide,
      show (0:Int) < Int.ofNat MOTH_COOLDOWN_MS by decide, hcap, hack,
      show (0:Int) ≤ Int.ofNat LDR_MIN by decide,
      show Int.ofNat LDR_MIN < Int.ofNat LDR_MAX by decide⟩

/-- Witness for C9 at concrete inputs: the examined constants with positive
capture and ack-wait timeouts proceed, while a zero debounce is fatal. -/
theorem C9_witness :
    startup ⟨Int.ofNat DEBOUNCE_TIME_MS, Int.ofNat MOTH_COOLDOWN_MS, 2000, 1000,
        Int.ofNat LDR_MIN, Int.ofNat LDR_MAX⟩ = StartupResult.proceed
    ∧ startup ⟨0, 500, 2000, 1000, 0, 4095⟩ = StartupResult.configurationInvalid :=
  ⟨C9_startup_validation.2.2 2000 1000 (by decide) (by decide),
    C9_startup_validation.2.1 ⟨0, 500, 2000, 1000, 0, 4095⟩ (Or.inl (by decide))⟩

/-! ## Transfer protocol lemmas -/

/-- Every chunk produced by the chunker has at most `mtu` bytes. -/
theorem chunksOfAux_sizes (mtu : Nat) :
    ∀ (fuel : Nat) (l c : List Nat), c ∈ chunksOfAux mtu fuel l → c.length ≤ mtu := by
  intro fuel
  induction fuel with
  | zero =>
    intro l c hc
    cases l <;> simp [chunksOfAux] at hc
  | succ f ih =>
    intro l c hc
    cases l with
    | nil => simp [chunksOfAux] at hc
    | cons d ds =>
      rw [chunksOfAux] at hc
      rcases List.mem_cons.1 hc with rfl | hc
      · exact List.length_take_le mtu (d :: ds)
      · exact ih _ c hc

/-- With sufficient fuel and a positive MTU, concatenating the chunks restores
the original byte stream. -/
theorem chunksOfAux_flatten (mtu : Nat) (hm : 0 < mtu) :
    ∀ (fuel : Nat) (l : List Nat), l.length ≤ fuel →
      (chunksOfAux mtu fuel l).flatten = l := by
  intro fuel
  induction fuel with
  | zero =>
    intro l hl
    have hnil : l = [] := List.eq_nil_of_length_eq_zero (by omega)
    subst hnil
    rfl
  | succ f ih =>
    intro l hl
    cases l with
    | nil => rfl
    | cons d ds =>
      rw [chunksOfAux, List.flatten_cons]
      rw [ih ((d :: ds).drop mtu)
        (by simp only [List.length_drop, List.length_cons] at *; omega)]
      exact List.take_append_drop mtu (d :: ds)

/-- Chunking then reassembling is the identity on the byte stream. -/
theorem chunksOf_flatten (mtu : Nat) (hm : 0 < mtu) (data : List Nat) :
    (chunksOf mtu data).flatten = data :=
  chunksOfAux_flatten mtu hm data.length data (Nat.le_refl _)

/-- Parsing a length-prefixed artifact with the matching presence bit recovers
the artifact and the remaining bytes. -/
theorem parseArt_serializeArt (a : Option (List Nat)) (tail : List Nat) :
    parseArt a.isSome (serializeArt a ++ tail) = some (a, tail) := by
  cases a with
  | none => simp [parseArt, serializeArt]
  | some bs =>
    simp only [Option.isSome_some, serializeArt, List.cons_append, parseArt, if_pos]
    rw [if_pos (by simp)]
    rw [List.take_left, List.drop_left]

/-- The image presence bit stored in the kind tag. -/
theorem kindTag_bit1 (e : Event) : decide (kindTag e % 2 = 1) = e.imageBytes.isSome := by
  rcases e with ⟨i, ts, img, aud, sf⟩
  cases img <;> cases aud <;> simp [kindTag]

/-- The audio presence bit stored in the kind tag. -/
theorem kindTag_bit2 (e : Event) : decide (kindTag e / 2 = 1) = e.audioBytes.isSome := by
  rcases e with ⟨i, ts, img, aud, sf⟩
  cases img <;> cases aud <;> simp [kindTag]


/-- Parsing a serialized event recovers its id, timestamp and both artifact
byte sequences exactly (the receiver's copy carries a cleared `sent_flag`). -/
theorem parseEvent_serializeEvent (e : Event) :
    parseEvent (serializeEvent e) = some { e with sent_flag := false } := by
  rcases e with ⟨i, ts, img, aud, sf⟩
  have hb1 : decide (kindTag ⟨i, ts, img, aud, sf⟩ % 2 = 1) = img.isSome :=
    kindTag_bit1 ⟨i, ts, img, aud, sf⟩
  have hb2 : decide (kindTag ⟨i, ts, img, aud, sf⟩ / 2 = 1) = aud.isSome :=
    kindTag_bit2 ⟨i, ts, img, aud, sf⟩
  simp only [serializeEvent, serializePayload, parseEvent]
  rw [if_pos (by simp)]
  rw [hb1, hb2]
  rw [show serializeArt img ++ serializeArt aud
      = serializeArt img ++ (serializeArt aud ++ []) by simp]
  rw [parseArt_serializeArt img (serializeArt aud ++ [])]
  simp only [Option.some_bind]
  rw [parseArt_serializeArt aud []]
  simp only [Option.some_bind]
  rfl

/-- In any session transcript, a transmission of chunk j+1 can only appear
after an acknowledgement of chunk j: each chunk is acknowledged before the
next one is sent. -/
theorem runTrace_ack_before (B n : Nat) :
    ∀ (acks : List AckResult) (seq t j : Nat) (l1 l2 : List TAct),
      seq ≤ j →
      runTrace B n seq t acks = l1 ++ TAct.tsend (j + 1) :: l2 →
      TAct.tack j ∈ l1 := by
  intro acks
  induction acks with
  | nil =>
    intro seq t j l1 l2 hle heq
    by_cases hn : n ≤ seq
    · rw [runTrace, if_pos hn] at heq
      have hlen := congrArg List.length heq
      simp at hlen
      omega
    · rw [runTrace, if_neg hn] at heq
      cases l1 with
      | nil =>
        simp only [List.nil_append, List.cons.injEq, TAct.tsend.injEq] at heq
        omega
      | cons x l1' =>
        simp only [List.cons_append, List.cons.injEq] at heq
        have hlen := congrArg List.length heq.2
        simp at hlen
        omega
  | cons r rest ih =>
    intro seq t j l1 l2 hle heq
    cases r with
    | ack =>
      by_cases hn : n ≤ seq
      · rw [runTrace, if_pos hn] at heq
        have hlen := congrArg List.length heq
        simp at hlen
        omega
      · rw [runTrace, if_neg hn] at heq
        cases l1 with
        | nil =>
          simp only [List.nil_append, List.cons.injEq, TAct.tsend.injEq] at heq
          omega
        | cons x l1' =>
          cases l1' with
          | nil =>
            simp only [List.cons_append, List.nil_append, List.cons.injEq] at heq
            exact absurd heq.2.1 (by intro h; cases h)
          | cons y l1'' =>
            simp only [List.cons_append, List.cons.injEq] at heq
            obtain ⟨hx, hy, heq2⟩ := heq
            by_cases hj : seq + 1 ≤ j
            · have := ih (seq + 1) 0 j l1'' l2 hj heq2
              exact List.mem_cons_of_mem _ (List.mem_cons_of_mem _ this)
            · have hjs : j = seq := by omega
              rw [hjs, hy]
              exact List.mem_cons_of_mem _ (List.mem_cons_self _ _)
    | timeout =>
      by_cases hn : n ≤ seq
      · rw [runTrace, if_pos hn] at heq
        have hlen := congrArg List.length heq
        simp at hlen
        omega
      · rw [runTrace, if_neg hn] at heq
        by_cases hB : B ≤ t + 1
        · rw [if_pos hB] at heq
          cases l1 with
          | nil =>
            simp only [List.nil_append, List.cons.injEq, TAct.tsend.injEq] at heq
            omega
          | cons x l1' =>
            cases l1' with
            | nil =>
              simp only [List.cons_append, List.nil_append, List.cons.injEq] at heq
              exact absurd heq.2.1 (by intro h; cases h)
            | cons y l1'' =>
              simp only [List.cons_append, List.cons.injEq] at heq
              have hlen := congrArg List.length heq.2.2
              simp at hlen
              omega
        · rw [if_neg hB] at heq
          cases l1 with
          | nil =>
            simp only [List.nil_append, List.cons.injEq, TAct.tsend.injEq] at heq
            omega
          | cons x l1' =>
            cases l1' with
            | nil =>
              simp only [List.cons_append, List.nil_append, List.cons.injEq] at heq
              exact absurd heq.2.1 (by intro h; cases h)
            | cons y l1'' =>
              simp only [List.cons_append, List.cons.injEq] at heq
              obtain ⟨hx, hy, heq2⟩ := heq
              have := ih seq (t + 1) j l1'' l2 hle heq2
              exact List.mem_cons_of_mem _ (List.mem_cons_of_mem _ this)

/-- Number of chunks at the examined MTU of 512: the ceiling of the byte count
divided by 512 (stated for the concrete MTU so that the arithmetic is by a
fixed constant). -/
theorem chunksOfAux_length_512 :
    ∀ (fuel : Nat) (l : List Nat), l.length ≤ fuel →
      (chunksOfAux 512 fuel l).length = (l.length + 511) / 512 := by
  intro fuel
  induction fuel with
  | zero =>
    intro l hl
    have hnil : l = [] := List.eq_nil_of_length_eq_zero (by omega)
    subst hnil
    simp [chunksOfAux]
  | succ f ih =>
    intro l hl
    cases l with
    | nil => simp [chunksOfAux]
    | cons d ds =>
      rw [chunksOfAux]
      rw [List.length_cons, ih ((d :: ds).drop 512)
        (by simp only [List.length_drop, List.length_cons] at *; omega)]
      simp only [List.length_drop, List.length_cons]
      omega

/-- The serialized scenario event occupies 3005 bytes: 3 header words, the
timestamp, the image length prefix and the 3000 artifact bytes. -/
theorem serializeEvent_evA_length : (serializeEvent evA).length = 3005 := by
  simp only [serializeEvent, serializePayload, serializeArt, evA, List.length_cons,
    List.length_append, List.length_replicate, List.length_nil]

/-- With retry bound 2, a send loop whose third chunk times out twice abandons
the event (result false), whatever the chunk contents. -/
theorem runSend_two_timeouts (chunks : List (List Nat)) (h : 3 ≤ chunks.length) :
    runSend 2 chunks 0
      [AckResult.ack, AckResult.ack, AckResult.timeout, AckResult.timeout] = false := by
  cases chunks with
  | nil => simp at h
  | cons c1 r1 =>
    cases r1 with
    | nil => simp at h
    | cons c2 r2 =>
      cases r2 with
      | nil => simp at h
      | cons c3 tl => rfl

/-- The scenario event is chunked into exactly 6 pieces at MTU 512. -/
theorem chunksOf_evA_length : (chunksOf 512 (serializeEvent evA)).length = 6 := by
  rw [chunksOf, chunksOfAux_length_512 (serializeEvent evA).length (serializeEvent evA)
    (Nat.le_refl _), serializeEvent_evA_length]

/-- The scenario send of the 3000-byte event is abandoned: chunks 1 and 2 are
acknowledged, chunk 3 times out twice against retry bound 2. -/
theorem runSend_evA_false :
    runSend 2 (chunksOf 512 (serializeEvent evA)) 0
      [AckResult.ack, AckResult.ack, AckResult.timeout, AckResult.timeout] = false := by
  refine runSend_two_timeouts _ ?_
  rw [chunksOf_evA_length]
  omega

/-- In the two-event scenario the engine abandons the first event and delivers
the second: the store ends with only the second event marked sent. -/
theorem transferRun_scenario :
    transferRun 2 512 scenarioStore scenarioAcks = scenarioStore.mark_sent 2 := by
  have hstep1 : transferStep 2 512 scenarioStore evA
      [AckResult.ack, AckResult.ack, AckResult.timeout, AckResult.timeout]
        = scenarioStore := by
    rw [transferStep, runSend_evA_false]
    rfl
  have hstep2 : transferStep 2 512 scenarioStore evB [AckResult.ack]
      = scenarioStore.mark_sent 2 := by
    have hB : runSend 2 (chunksOf 512 (serializeEvent evB)) 0 [AckResult.ack] = true := by
      decide
    rw [transferStep, hB]
    rfl
  show transferStep 2 512 (transferStep 2 512 scenarioStore evA
      [AckResult.ack, AckResult.ack, AckResult.timeout, AckResult.timeout]) evB [AckResult.ack]
    = scenarioStore.mark_sent 2
  rw [hstep1, hstep2]

/-! ## Claim theorems: transfer protocol -/

/-- C5: every chunk produced for streaming is no larger than the negotiated
MTU; in any session transcript each chunk is acknowledged before the next is
sent; the scenario event with a 3000-byte image artifact is sent over MTU 512
as exactly 6 chunks; when chunk 3's ack times out twice against retry bound 2
the event is abandoned, and in the two-event scenario store the engine skips
to the next event — the abandoned event's `sent_flag` remains false while the
next event is delivered. -/
theorem C5_chunking_ack_retry :
    (∀ (mtu : Nat) (data c : List Nat), c ∈ chunksOf mtu data → c.length ≤ mtu)
    ∧ (∀ (B n : Nat) (acks : List AckResult) (seq t j : Nat) (l1 l2 : List TAct),
        seq ≤ j →
        runTrace B n seq t acks = l1 ++ TAct.tsend (j + 1) :: l2 →
        TAct.tack j ∈ l1)
    ∧ (chunksOf 512 (serializeEvent evA)).length = 6
    ∧ runSend 2 (chunksOf 512 (serializeEvent evA)) 0
        [AckResult.ack, AckResult.ack, AckResult.timeout, AckResult.timeout] = false
    ∧ ((transferRun 2 512 scenarioStore scenarioAcks).get 1).map Event.sent_flag
        = some false
    ∧ ((transferRun 2 512 scenarioStore scenarioAcks).get 2).map Event.sent_flag
        = some true := by
  refine ⟨?_, ?_, chunksOf_evA_length, runSend_evA_false, ?_, ?_⟩
  · intro mtu data c hc
    exact chunksOfAux_sizes mtu data.length data c hc
  · intro B n acks seq t j l1 l2 hle heq
    exact runTrace_ack_before B n acks seq t j l1 l2 hle heq
  · rw [transferRun_scenario]
    rfl
  · rw [transferRun_scenario]
    rfl

/-- Witness for C5 at concrete inputs: the single chunk of a one-byte stream
respects the MTU, and in the transcript of two acknowledged chunks the ack of
chunk 0 precedes the transmission of chunk 1. -/
theorem C5_witness :
    ([0] : List Nat).length ≤ 512 ∧ TAct.tack 0 ∈ [TAct.tsend 0, TAct.tack 0] :=
  ⟨C5_chunking_ack_retry.1 512 [0] [0] (by decide),
    C5_chunking_ack_retry.2.1 2 6 [AckResult.ack, AckResult.ack] 0 0 0
      [TAct.tsend 0, TAct.tack 0] [TAct.tack 1, TAct.tsend 2] (by decide) (by decide)⟩

/-- C6: for every stored Event, serialization followed by MTU-bounded chunking
and in-order reassembly of the chunks parses back to an event with identical
id, timestamp and artifact bytes (transfer is the identity on the event's
data; only the local delivery flag is not transferred). -/
theorem C6_roundtrip (e : Event) (mtu : Nat) (h : 0 < mtu) :
    parseEvent ((chunksOf mtu (serializeEvent e)).flatten)
      = some { e with sent_flag := false } := by
  rw [chunksOf_flatten mtu h (serializeEvent e)]
  exact parseEvent_serializeEvent e

/-- Witness for C6 at a concrete input: an event with both artifact kinds,
chunked at MTU 512, reassembles to the stored data. -/
theorem C6_witness :
    parseEvent ((chunksOf 512 (serializeEvent
        (⟨7, 3, some [1, 2, 3], some [9], true⟩ : Event))).flatten)
      = some { (⟨7, 3, some [1, 2, 3], some [9], true⟩ : Event) with sent_flag := false } :=
  C6_roundtrip ⟨7, 3, some [1, 2, 3], some [9], true⟩ 512 (by decide)
